import Mathlib

/-!
# Verification of the IAM attack-path visualizer core

Shallow embedding of the privilege-escalation graph engine from
`src/aws_scanner.py` (trust-policy parsing, admin classification,
privilege-path derivation) and `src/graph_builder.py` (graph assembly),
together with theorems settling the specification claims.

Python dynamic values are modelled by the inductive `JValue`; a Python
operation that can raise is modelled as `Except`, with the error payload
carrying whatever state the exception handler would observe.
-/

namespace IamViz

/-- JSON-like Python value: the dynamic values flowing through the
trust-policy parser. Objects are association lists (Python dicts have
unique keys; `List.lookup` takes the first match, which coincides). -/
inductive JValue where
  | null
  | bool (b : Bool)
  | num (n : Int)
  | str (s : String)
  | arr (xs : List JValue)
  | obj (fields : List (String × JValue))

/-! ## Python string splitting

`s.split(sep)` for a nonempty separator: greedy left-to-right scan,
splitting at each non-overlapping occurrence. Fuel is the length of the
character list; each step consumes at least one character, so the fuel
never runs out on the `0` branch for a nonempty separator. -/

def pySplitAux (sep : List Char) : Nat → List Char → List Char → List (List Char)
  | _, [], cur => [cur.reverse]
  | 0, l, cur => [cur.reverse ++ l]
  | fuel + 1, c :: rest, cur =>
    if sep.isPrefixOf (c :: rest) then
      cur.reverse :: pySplitAux sep fuel (List.drop sep.length (c :: rest)) []
    else
      pySplitAux sep fuel rest (c :: cur)

/-- Python `s.split(sep)` (for nonempty `sep`). -/
def pySplit (s sep : String) : List String :=
  (pySplitAux sep.data s.data.length s.data []).map String.mk

/-- Python `sub in s` (substring containment), expressed through `split`:
`sub in s` holds exactly when splitting on `sub` yields more than one part. -/
def pyStrContains (s sub : String) : Bool :=
  (pySplit s sub).length > 1

/-! ## Python primitives on `JValue`, with explicit exception semantics -/

/-- Python `d.get(key, default)`: raises `AttributeError` on a non-dict. -/
def pyDictGet (v : JValue) (key : String) (dflt : JValue) : Except String JValue :=
  match v with
  | .obj fs => .ok ((fs.lookup key).getD dflt)
  | _ => .error "AttributeError"

/-- Does a `JValue` equal the Python string `x`? (Python `==` between a
non-string value and a string is `False`.) -/
def jEqStrB (v : JValue) (x : String) : Bool :=
  match v with
  | .str s => s = x
  | _ => false

/-- Python `x in container` for a string `x`: dict → key test, list →
element equality test, string → substring test, otherwise `TypeError`. -/
def pyIn (x : String) (container : JValue) : Except String Bool :=
  match container with
  | .obj fs => .ok (fs.any (fun kv => kv.1 = x))
  | .arr xs => .ok (xs.any (fun v => jEqStrB v x))
  | .str s => .ok (pyStrContains s x)
  | _ => .error "TypeError"

/-- Python `container[key]` for a string key: dict lookup (`KeyError` when
absent); any other container raises `TypeError`. -/
def pySubscript (v : JValue) (key : String) : Except String JValue :=
  match v with
  | .obj fs =>
    match fs.lookup key with
    | some x => .ok x
    | none => .error "KeyError"
  | _ => .error "TypeError"

/-- Python `isinstance(v, str)`. -/
def isinstanceStr (v : JValue) : Bool :=
  match v with
  | .str _ => true
  | _ => false

/-- The elements `list.extend(v)` would append: a list contributes its
elements, a string its characters, a dict its keys; non-iterables raise. -/
def pyExtendList (v : JValue) : Except String (List JValue) :=
  match v with
  | .arr xs => .ok xs
  | .str s => .ok (s.data.map (fun c => .str (String.mk [c])))
  | .obj fs => .ok (fs.map (fun kv => .str kv.1))
  | _ => .error "TypeError"

/-! ## `AWSIAMScanner._parse_trust_policy`

```python
trusted = []
try:
    for statement in trust_policy.get('Statement', []):
        if statement.get('Effect') == 'Allow':
            principal = statement.get('Principal', {})
            if 'AWS' in principal:
                aws_principals = principal['AWS']
                if isinstance(aws_principals, str):
                    aws_principals = [aws_principals]
                trusted.extend(aws_principals)
            if 'Service' in principal:
                services = principal['Service']
                if isinstance(services, str):
                    services = [services]
                trusted.extend(services)
except Exception as e:
    ...  # warning printed; falls through
return trusted
```

`Except (List JValue) (List JValue)` models the try-block body: the error
payload is the `trusted` list accumulated up to the point of the raise,
which is exactly what the handler then returns. -/

/-- `if isinstance(x, str): x = [x]`. -/
def normalizePrincipalVal (v : JValue) : JValue :=
  if isinstanceStr v then .arr [v] else v

/-- One `if key in principal: ... trusted.extend(...)` block. -/
def extendFromKey (principal : JValue) (key : String) (acc : List JValue) :
    Except (List JValue) (List JValue) :=
  match pyIn key principal with
  | .error _ => .error acc
  | .ok cond =>
    if cond then
      match pySubscript principal key with
      | .error _ => .error acc
      | .ok v =>
        match pyExtendList (normalizePrincipalVal v) with
        | .error _ => .error acc
        | .ok xs => .ok (acc ++ xs)
    else .ok acc

/-- Body of the statement loop, for one statement. -/
def processStatement (stmt : JValue) (acc : List JValue) :
    Except (List JValue) (List JValue) :=
  match pyDictGet stmt "Effect" .null with
  | .error _ => .error acc
  | .ok eff =>
    if jEqStrB eff "Allow" then
      match pyDictGet stmt "Principal" (.obj []) with
      | .error _ => .error acc
      | .ok principal =>
        match extendFromKey principal "AWS" acc with
        | .error a => .error a
        | .ok acc1 => extendFromKey principal "Service" acc1
    else .ok acc

/-- The statement loop. -/
def parseLoop : List JValue → List JValue → Except (List JValue) (List JValue)
  | [], acc => .ok acc
  | st :: rest, acc =>
    match processStatement st acc with
    | .error a => .error a
    | .ok acc1 => parseLoop rest acc1

/-- The try-block: `trust_policy.get('Statement', [])` then the loop.
A non-list `Statement` value is still iterable in Python when it is a
string (characters) or a dict (keys); those element streams are modelled
explicitly, and anything else raises `TypeError` at the `for`. -/
def parseInner (tp : JValue) : Except (List JValue) (List JValue) :=
  match pyDictGet tp "Statement" (.arr []) with
  | .error _ => .error []
  | .ok stmts =>
    match stmts with
    | .arr l => parseLoop l []
    | .str s => parseLoop (s.data.map (fun c => .str (String.mk [c]))) []
    | .obj fs => parseLoop (fs.map (fun kv => .str kv.1)) []
    | _ => .error []

/-- `AWSIAMScanner._parse_trust_policy`, as seen by its caller: raising is
modelled as `Except.error`; the internal `try/except` turns every raise
into a normal return of the partial `trusted` list. -/
def parse_trust_policy (tp : JValue) : Except String (List JValue) :=
  match parseInner tp with
  | .ok t => .ok t
  | .error t => .ok t

/-- The principal list the parser returns (its observable result). -/
def trustedPrincipals (tp : JValue) : List JValue :=
  match parse_trust_policy tp with
  | .ok t => t
  | .error _ => []

/-! ## Scanner data model

The records accumulated by `_scan_users` / `_scan_roles` / `_scan_groups`
(`name`, `arn`, `type` tag implied by the record type, membership /
trust / policy lists). -/

structure User where
  name : String
  arn : String
  groups : List String
  policies : List String
deriving DecidableEq

structure Group where
  name : String
  arn : String
  policies : List String
deriving DecidableEq

structure Role where
  name : String
  arn : String
  trusted_entities : List String
  policies : List String
deriving DecidableEq

/-- One record of `self.privilege_paths`. -/
structure PrivilegePath where
  type : String
  path : List String
  risk : String
  description : String
deriving DecidableEq

/-- `AWSIAMScanner.ADMIN_POLICIES` (a Python set; only membership is used). -/
def ADMIN_POLICIES : List String :=
  ["AdministratorAccess", "PowerUserAccess", "IAMFullAccess"]

/-- `any(policy in self.ADMIN_POLICIES for policy in entity['policies'])`. -/
def hasAdminPolicy (policies : List String) : Bool :=
  policies.any (fun p => ADMIN_POLICIES.contains p)

/-- Python `set.add`: no-op when the element is already present. -/
def setAdd (s : List String) (x : String) : List String :=
  if x ∈ s then s else s ++ [x]

/-- `AWSIAMScanner._identify_admin_entities`: iterate users, then roles,
then groups, adding the names of entities with an admin policy. -/
def identify_admin_entities (users : List User) (roles : List Role)
    (groups : List Group) : List String :=
  let s1 := users.foldl (fun s u => if hasAdminPolicy u.policies then setAdd s u.name else s) []
  let s2 := roles.foldl (fun s r => if hasAdminPolicy r.policies then setAdd s r.name else s) s1
  groups.foldl (fun s g => if hasAdminPolicy g.policies then setAdd s g.name else s) s2

/-- `AWSIAMScanner._extract_role_name`:
```python
if ':role/' in arn_or_principal:
    return arn_or_principal.split(':role/')[-1]
return None
```
`sep in s` holds exactly when `s.split(sep)` has more than one part, and
`[-1]` is the last part. -/
def extract_role_name (s : String) : Option String :=
  let parts := pySplit s ":role/"
  if parts.length > 1 then some (parts.getLastD "") else none

/-- The record appended by the user→group rule. -/
def userAdminPath (u : User) (g : String) : PrivilegePath :=
  { type := "user_to_group_admin"
    path := [u.name, g]
    risk := "HIGH"
    description := "User " ++ u.name ++ " has admin through group " ++ g }

/-- The record appended by the role-chain rule. -/
def roleChainPath (cand roleName : String) : PrivilegePath :=
  { type := "role_chain_admin"
    path := [cand, roleName]
    risk := "CRITICAL"
    description := "Role " ++ cand ++ " can assume admin role " ++ roleName }

/-- `AWSIAMScanner._build_privilege_paths`: the user→group loop appends
first, then the role-chain loop; the role-chain guard is Python truthiness
of `_extract_role_name`'s result (`None` and the empty string are falsy). -/
def build_privilege_paths (users : List User) (roles : List Role)
    (admin : List String) : List PrivilegePath :=
  let afterUsers := users.foldl (fun acc u =>
    u.groups.foldl (fun acc2 g =>
      if g ∈ admin then acc2 ++ [userAdminPath u g] else acc2) acc) []
  roles.foldl (fun acc r =>
    if r.name ∈ admin then
      r.trusted_entities.foldl (fun acc2 t =>
        match extract_role_name t with
        | some n => if n.isEmpty then acc2 else acc2 ++ [roleChainPath n r.name]
        | none => acc2) acc
    else acc) afterUsers

/-! ## Spec-level path derivation

Two declarative restatements of `PathDeriver`, used to compare the code
against the claim: `claimDerivedPaths` follows the claim's words exactly
(every principal containing `:role/` emits), `specDerivedPaths` is the
amended version (the extracted candidate must additionally be nonempty). -/

/-- Claim wording: for each user and each group membership in `admin`, a
user path; then for each admin role and each trusted principal containing
`:role/`, a role-chain path from the substring after the last `:role/`. -/
def claimDerivedPaths (users : List User) (roles : List Role)
    (admin : List String) : List PrivilegePath :=
  (users.flatMap fun u =>
    (u.groups.filter (fun g => decide (g ∈ admin))).map (userAdminPath u)) ++
  (roles.flatMap fun r =>
    if r.name ∈ admin then
      r.trusted_entities.filterMap (fun t =>
        (extract_role_name t).map (fun n => roleChainPath n r.name))
    else [])

/-- Amended wording: as `claimDerivedPaths`, but a role-chain path is
emitted only when the extracted candidate role name is nonempty. -/
def specDerivedPaths (users : List User) (roles : List Role)
    (admin : List String) : List PrivilegePath :=
  (users.flatMap fun u =>
    (u.groups.filter (fun g => decide (g ∈ admin))).map (userAdminPath u)) ++
  (roles.flatMap fun r =>
    if r.name ∈ admin then
      r.trusted_entities.filterMap (fun t =>
        match extract_role_name t with
        | some n => if n.isEmpty then none else some (roleChainPath n r.name)
        | none => none)
    else [])

/-! ## Graph model (`src/graph_builder.py`)

A `networkx.DiGraph` restricted to the operations the builder uses.
`add_node` on an existing node updates its attribute dict (here all three
attributes are always given together, so update = replace); `add_edge`
silently creates missing endpoint nodes with an empty attribute dict
(`none`), and re-inserting an existing ordered pair updates its
attributes in place, never creating a second edge. Insertion order of the
association lists mirrors networkx insertion order. -/

structure NodeAttrs where
  type : String
  has_admin : Bool
  arn : String
deriving DecidableEq

structure PGraph where
  nodes : List (String × Option NodeAttrs)
  edges : List (String × String × String)
deriving DecidableEq

/-- The node names present in the graph. -/
def nodeNames (g : PGraph) : List String :=
  g.nodes.map (fun p => p.1)

/-- `G.add_node(n, type=..., has_admin=..., arn=...)`. -/
def addNode (g : PGraph) (n : String) (a : NodeAttrs) : PGraph :=
  if n ∈ nodeNames g then
    { g with nodes := g.nodes.map (fun p => if p.1 = n then (n, some a) else p) }
  else
    { g with nodes := g.nodes ++ [(n, some a)] }

/-- The implicit node creation `add_edge` performs for a missing endpoint:
a node with an empty attribute dict. -/
def ensureNode (g : PGraph) (n : String) : PGraph :=
  if n ∈ nodeNames g then g else { g with nodes := g.nodes ++ [(n, none)] }

/-- Does an edge record have the ordered endpoint pair `(u, v)`? networkx
keys edges by this pair. -/
def edgeKeyIs (u v : String) (e : String × String × String) : Bool :=
  e.1 = u && e.2.1 = v

/-- `G.add_edge(u, v, relationship=rel)`. -/
def addEdge (g : PGraph) (u v rel : String) : PGraph :=
  let g1 := ensureNode (ensureNode g u) v
  if g1.edges.any (edgeKeyIs u v) then
    { g1 with edges := g1.edges.map (fun e => if edgeKeyIs u v e then (u, v, rel) else e) }
  else
    { g1 with edges := g1.edges ++ [(u, v, rel)] }

/-- One iteration of the user loop: add the user node, then a `member_of`
edge to each group in its membership list. -/
def addUserStep (admin : List String) (g : PGraph) (u : User) : PGraph :=
  let g1 := addNode g u.name ⟨"user", admin.contains u.name, u.arn⟩
  u.groups.foldl (fun acc gn => addEdge acc u.name gn "member_of") g1

/-- One iteration of the group loop. -/
def addGroupStep (admin : List String) (g : PGraph) (gr : Group) : PGraph :=
  addNode g gr.name ⟨"group", admin.contains gr.name, gr.arn⟩

/-- One iteration of the role loop. -/
def addRoleStep (admin : List String) (g : PGraph) (r : Role) : PGraph :=
  addNode g r.name ⟨"role", admin.contains r.name, r.arn⟩

/-- `for i in range(len(path_steps) - 1): G.add_edge(path[i], path[i+1], ...)`. -/
def addPathEdges (g : PGraph) : List String → PGraph
  | a :: b :: rest => addPathEdges (addEdge g a b "privilege_escalation") (b :: rest)
  | _ => g

/-- One iteration of the privilege-path loop (with its `len >= 2` guard). -/
def addPathStep (g : PGraph) (p : PrivilegePath) : PGraph :=
  if 2 ≤ p.path.length then addPathEdges g p.path else g

/-- `build_privilege_graph`: users (nodes and membership edges), then
group nodes, then role nodes, then privilege-path edges. -/
def build_privilege_graph (users : List User) (groups : List Group)
    (roles : List Role) (admin : List String) (paths : List PrivilegePath) : PGraph :=
  let g0 : PGraph := ⟨[], []⟩
  let g1 := users.foldl (addUserStep admin) g0
  let g2 := groups.foldl (addGroupStep admin) g1
  let g3 := roles.foldl (addRoleStep admin) g2
  paths.foldl addPathStep g3

/-! ## Lemmas: path derivation -/

theorem inner_user_fold (admin : List String) (u : User) :
    ∀ (gs : List String) (acc : List PrivilegePath),
      gs.foldl (fun acc2 g => if g ∈ admin then acc2 ++ [userAdminPath u g] else acc2) acc
        = acc ++ (gs.filter (fun g => decide (g ∈ admin))).map (userAdminPath u)
  | [], acc => by simp
  | g :: gs, acc => by
    by_cases h : g ∈ admin
    · simp [h, List.filter_cons, inner_user_fold admin u gs]
    · simp [h, List.filter_cons, inner_user_fold admin u gs]

theorem outer_user_fold (admin : List String) :
    ∀ (users : List User) (acc : List PrivilegePath),
      users.foldl (fun acc u =>
          u.groups.foldl (fun acc2 g =>
            if g ∈ admin then acc2 ++ [userAdminPath u g] else acc2) acc) acc
        = acc ++ users.flatMap (fun u =>
            (u.groups.filter (fun g => decide (g ∈ admin))).map (userAdminPath u))
  | [], acc => by simp
  | u :: users, acc => by
    simp only [List.foldl_cons, List.flatMap_cons]
    rw [inner_user_fold, outer_user_fold admin users]
    simp

theorem inner_role_fold (rname : String) :
    ∀ (ts : List String) (acc : List PrivilegePath),
      ts.foldl (fun acc2 t =>
          match extract_role_name t with
          | some n => if n.isEmpty then acc2 else acc2 ++ [roleChainPath n rname]
          | none => acc2) acc
        = acc ++ ts.filterMap (fun t =>
            match extract_role_name t with
            | some n => if n.isEmpty then none else some (roleChainPath n rname)
            | none => none)
  | [], acc => by simp
  | t :: ts, acc => by
    simp only [List.foldl_cons, List.filterMap_cons]
    cases h : extract_role_name t with
    | none => simp [h, inner_role_fold rname ts]
    | some n =>
      by_cases he : n.isEmpty
      · simp [h, he, inner_role_fold rname ts]
      · simp [h, he, inner_role_fold rname ts]

theorem outer_role_fold (admin : List String) :
    ∀ (roles : List Role) (acc : List PrivilegePath),
      roles.foldl (fun acc r =>
          if r.name ∈ admin then
            r.trusted_entities.foldl (fun acc2 t =>
              match extract_role_name t with
              | some n => if n.isEmpty then acc2 else acc2 ++ [roleChainPath n r.name]
              | none => acc2) acc
          else acc) acc
        = acc ++ roles.flatMap (fun r =>
            if r.name ∈ admin then
              r.trusted_entities.filterMap (fun t =>
                match extract_role_name t with
                | some n => if n.isEmpty then none else some (roleChainPath n r.name)
                | none => none)
            else [])
  | [], acc => by simp
  | r :: roles, acc => by
    simp only [List.foldl_cons, List.flatMap_cons]
    by_cases h : r.name ∈ admin
    · rw [if_pos h, if_pos h, inner_role_fold, outer_role_fold admin roles]
      simp
    · rw [if_neg h, if_neg h, outer_role_fold admin roles]
      simp

/-- The imperative loops of `_build_privilege_paths` compute exactly the
declarative (amended) derivation. -/
theorem build_eq_spec (users : List User) (roles : List Role) (admin : List String) :
    build_privilege_paths users roles admin = specDerivedPaths users roles admin := by
  unfold build_privilege_paths specDerivedPaths
  rw [outer_user_fold, outer_role_fold]
  simp

/-! ## Lemmas: admin classification -/

theorem mem_setAdd (s : List String) (x y : String) :
    y ∈ setAdd s x ↔ y ∈ s ∨ y = x := by
  unfold setAdd
  by_cases h : x ∈ s
  · simp only [if_pos h]
    constructor
    · exact fun hy => Or.inl hy
    · rintro (hy | rfl) <;> [exact hy; exact h]
  · simp [if_neg h]

theorem mem_admin_fold {α : Type} (f : α → String) (q : α → Bool) :
    ∀ (l : List α) (s : List String) (n : String),
      (n ∈ l.foldl (fun s a => if q a then setAdd s (f a) else s) s) ↔
        n ∈ s ∨ ∃ a, a ∈ l ∧ f a = n ∧ q a = true
  | [], s, n => by simp
  | a :: l, s, n => by
    simp only [List.foldl_cons]
    by_cases h : q a
    · rw [if_pos h, mem_admin_fold f q l]
      simp only [mem_setAdd, List.mem_cons]
      constructor
      · rintro ((hs | rfl) | ⟨b, hb, rfl, hq⟩)
        · exact Or.inl hs
        · exact Or.inr ⟨a, Or.inl rfl, rfl, h⟩
        · exact Or.inr ⟨b, Or.inr hb, rfl, hq⟩
      · rintro (hs | ⟨b, (rfl | hb), rfl, hq⟩)
        · exact Or.inl (Or.inl hs)
        · exact Or.inl (Or.inr rfl)
        · exact Or.inr ⟨b, hb, rfl, hq⟩
    · rw [if_neg h, mem_admin_fold f q l]
      simp only [List.mem_cons]
      constructor
      · rintro (hs | ⟨b, hb, rfl, hq⟩)
        · exact Or.inl hs
        · exact Or.inr ⟨b, Or.inr hb, rfl, hq⟩
      · rintro (hs | ⟨b, (rfl | hb), rfl, hq⟩)
        · exact Or.inl hs
        · exact absurd hq h
        · exact Or.inr ⟨b, hb, rfl, hq⟩

theorem hasAdminPolicy_iff (ps : List String) :
    hasAdminPolicy ps = true ↔ ∃ p, p ∈ ps ∧ p ∈ ADMIN_POLICIES := by
  simp [hasAdminPolicy, List.any_eq_true]

/-! ## Claim C1 -/

/-- An admin role trusting a principal that ends in `:role/`: the
extracted candidate name is the empty string. -/
def cexRole : Role :=
  ⟨"AdminRole", "arn:aws:iam::1:role/AdminRole", ["arn:aws:iam::1:role/"], ["AdministratorAccess"]⟩

/-- C1 is false as stated: for a trusted principal ending in `:role/`
(which contains `:role/`), the claim's rules emit a `role_chain_admin`
path `["", "AdminRole"]`, but the code's truthiness guard on the extracted
name (`if trusted_role_name:`) drops it, so the code emits no path. -/
theorem C1_counterexample :
    build_privilege_paths [] [cexRole] (identify_admin_entities [] [cexRole] []) = [] ∧
      claimDerivedPaths [] [cexRole] (identify_admin_entities [] [cexRole] [])
        = [roleChainPath "" "AdminRole"] := by
  exact ⟨rfl, rfl⟩

/-- C1 (amended): `PathDeriver` emits exactly the paths of the two rules,
in order — user→group paths first (users in source order, groups in list
order, group in the admin set), then role-chain paths (roles in source
order whose name is in the admin set, principals in list order containing
`:role/`, candidate = substring after the last `:role/`, unverified
against the scanned roles), **provided the extracted candidate name is
nonempty**; no other paths are emitted. -/
theorem C1_path_deriver_amended :
    ∀ (users : List User) (roles : List Role) (admin : List String),
      build_privilege_paths users roles admin = specDerivedPaths users roles admin :=
  build_eq_spec

/-! ## Claim C2 -/

/-- C2: a name is in the admin entity set iff some scanned user, role, or
group with that name has an attached policy in the fixed admin-policy set
`{AdministratorAccess, PowerUserAccess, IAMFullAccess}`; the set is the
union of such names across the three entity types. -/
theorem C2_admin_set_iff :
    ∀ (users : List User) (roles : List Role) (groups : List Group) (n : String),
      n ∈ identify_admin_entities users roles groups ↔
        ((∃ u, u ∈ users ∧ u.name = n ∧ ∃ p, p ∈ u.policies ∧ p ∈ ADMIN_POLICIES) ∨
         (∃ r, r ∈ roles ∧ r.name = n ∧ ∃ p, p ∈ r.policies ∧ p ∈ ADMIN_POLICIES) ∨
         (∃ g, g ∈ groups ∧ g.name = n ∧ ∃ p, p ∈ g.policies ∧ p ∈ ADMIN_POLICIES)) := by
  intro users roles groups n
  unfold identify_admin_entities
  rw [mem_admin_fold, mem_admin_fold, mem_admin_fold]
  simp only [List.not_mem_nil, false_or, hasAdminPolicy_iff, or_assoc]

/-! ## Claim C4 -/

/-- C4: every derived privilege path has length at least 2 and ends in a
member of the admin entity set, for every input collection and admin set. -/
theorem C4_path_shape_invariant :
    ∀ (users : List User) (roles : List Role) (admin : List String) (p : PrivilegePath),
      p ∈ build_privilege_paths users roles admin →
        2 ≤ p.path.length ∧ ∃ x, p.path.getLast? = some x ∧ x ∈ admin := by
  intro users roles admin p hp
  rw [build_eq_spec] at hp
  unfold specDerivedPaths at hp
  rcases List.mem_append.mp hp with h | h
  · rcases List.mem_flatMap.mp h with ⟨u, _, hmem⟩
    rcases List.mem_map.mp hmem with ⟨g, hg, rfl⟩
    have hadm : g ∈ admin := by simpa using (List.mem_filter.mp hg).2
    exact ⟨by simp [userAdminPath], g, by simp [userAdminPath], hadm⟩
  · rcases List.mem_flatMap.mp h with ⟨r, _, hmem⟩
    by_cases hadm : r.name ∈ admin
    · rw [if_pos hadm] at hmem
      rcases List.mem_filterMap.mp hmem with ⟨t, _, hf⟩
      cases hext : extract_role_name t with
      | none => rw [hext] at hf; cases hf
      | some n =>
        rw [hext] at hf
        by_cases he : n.isEmpty
        · simp [he] at hf
        · simp only [he, if_false, Bool.false_eq_true, Option.some.injEq] at hf
          subst hf
          exact ⟨by simp [roleChainPath], r.name, by simp [roleChainPath], hadm⟩
    · rw [if_neg hadm] at hmem
      cases hmem

def aliceU : User := ⟨"alice", "arn:aws:iam::1:user/alice", ["Admins"], []⟩

theorem C4_path_shape_invariant_witness :
    2 ≤ (userAdminPath aliceU "Admins").path.length ∧
      ∃ x, (userAdminPath aliceU "Admins").path.getLast? = some x ∧ x ∈ ["Admins"] :=
  C4_path_shape_invariant [aliceU] [] ["Admins"] (userAdminPath aliceU "Admins") (by decide)

/-! ## Claim C5 -/

/-- C5: the trust-policy parser never raises to its caller: for every
input document it returns normally (`.ok`), and in particular a document
with `Statement` absent, `Statement` of the wrong type, or `Principal`
not a mapping yields an empty (or partial) principal list rather than a
propagated exception. -/
theorem C5_parse_never_raises :
    (∀ tp : JValue, parse_trust_policy tp = .ok (trustedPrincipals tp)) ∧
      trustedPrincipals (.obj []) = [] ∧
      trustedPrincipals (.obj [("Statement", .num 3)]) = [] ∧
      trustedPrincipals
        (.obj [("Statement", .arr [.obj [("Effect", .str "Allow"), ("Principal", .num 7)]])]) = [] := by
  refine ⟨fun tp => ?_, rfl, rfl, rfl⟩
  unfold trustedPrincipals parse_trust_policy
  cases parseInner tp <;> rfl

/-! ## Lemmas: graph structure -/

theorem addNode_edges (g : PGraph) (n : String) (a : NodeAttrs) :
    (addNode g n a).edges = g.edges := by
  unfold addNode
  split <;> rfl

theorem ensureNode_edges (g : PGraph) (n : String) :
    (ensureNode g n).edges = g.edges := by
  unfold ensureNode
  split <;> rfl

theorem addEdge_nodes (g : PGraph) (u v rel : String) :
    (addEdge g u v rel).nodes = (ensureNode (ensureNode g u) v).nodes := by
  simp only [addEdge]
  split <;> rfl

theorem map_fst_update (n : String) (a : NodeAttrs) :
    ∀ (l : List (String × Option NodeAttrs)),
      (l.map (fun p => if p.1 = n then (n, some a) else p)).map (fun p => p.1)
        = l.map (fun p => p.1)
  | [] => rfl
  | p :: l => by
    by_cases h : p.1 = n
    · simp [h, map_fst_update n a l]
    · simp [h, map_fst_update n a l]

theorem nodeNames_addNode (g : PGraph) (n : String) (a : NodeAttrs) :
    nodeNames (addNode g n a)
      = if n ∈ nodeNames g then nodeNames g else nodeNames g ++ [n] := by
  unfold addNode nodeNames
  split
  · simpa using map_fst_update n a g.nodes
  · simp

theorem nodeNames_ensureNode (g : PGraph) (n : String) :
    nodeNames (ensureNode g n)
      = if n ∈ nodeNames g then nodeNames g else nodeNames g ++ [n] := by
  unfold ensureNode nodeNames
  split <;> simp

theorem mem_nodeNames_addNode (g : PGraph) (n : String) (a : NodeAttrs) (m : String) :
    m ∈ nodeNames (addNode g n a) ↔ m ∈ nodeNames g ∨ m = n := by
  rw [nodeNames_addNode]
  split <;> rename_i h
  · constructor
    · exact fun hm => Or.inl hm
    · rintro (hm | rfl) <;> [exact hm; exact h]
  · simp

theorem mem_nodeNames_ensureNode (g : PGraph) (n : String) (m : String) :
    m ∈ nodeNames (ensureNode g n) ↔ m ∈ nodeNames g ∨ m = n := by
  rw [nodeNames_ensureNode]
  split <;> rename_i h
  · constructor
    · exact fun hm => Or.inl hm
    · rintro (hm | rfl) <;> [exact hm; exact h]
  · simp

theorem mem_nodeNames_addEdge (g : PGraph) (u v rel : String) (m : String) :
    m ∈ nodeNames (addEdge g u v rel) ↔ m ∈ nodeNames g ∨ m = u ∨ m = v := by
  have h : nodeNames (addEdge g u v rel) = nodeNames (ensureNode (ensureNode g u) v) := by
    unfold nodeNames
    rw [addEdge_nodes]
  rw [h, mem_nodeNames_ensureNode, mem_nodeNames_ensureNode]
  tauto

/-- Generic preservation of a predicate along a `foldl`. -/
theorem foldl_preserve {α : Type} (f : PGraph → α → PGraph) (P : PGraph → Prop)
    (hf : ∀ g x, P g → P (f g x)) :
    ∀ (l : List α) (g : PGraph), P g → P (l.foldl f g)
  | [], _, hg => hg
  | x :: l, g, hg => foldl_preserve f P hf l (f g x) (hf g x hg)

theorem mem_addUserStep (admin : List String) (g : PGraph) (u : User) (m : String)
    (hm : m ∈ nodeNames g) : m ∈ nodeNames (addUserStep admin g u) :=
  foldl_preserve _ (fun g => m ∈ nodeNames g)
    (fun g' x h => (mem_nodeNames_addEdge g' u.name x "member_of" m).mpr (Or.inl h))
    u.groups _
    ((mem_nodeNames_addNode g u.name ⟨"user", admin.contains u.name, u.arn⟩ m).mpr (Or.inl hm))

theorem mem_addPathEdges_mono (m : String) :
    ∀ (steps : List String) (g : PGraph), m ∈ nodeNames g → m ∈ nodeNames (addPathEdges g steps)
  | [], _, hm => hm
  | [_], _, hm => hm
  | a :: b :: rest, g, hm =>
    mem_addPathEdges_mono m (b :: rest) (addEdge g a b "privilege_escalation")
      ((mem_nodeNames_addEdge g a b "privilege_escalation" m).mpr (Or.inl hm))

theorem mem_addPathStep (g : PGraph) (p : PrivilegePath) (m : String)
    (hm : m ∈ nodeNames g) : m ∈ nodeNames (addPathStep g p) := by
  unfold addPathStep
  split
  · exact mem_addPathEdges_mono m p.path g hm
  · exact hm

/-- Node-name membership is preserved by the whole assembly pipeline from
any intermediate graph. -/
theorem mem_build_loops_mono (admin : List String) (groups : List Group)
    (roles : List Role) (paths : List PrivilegePath) (g : PGraph) (m : String)
    (hm : m ∈ nodeNames g) :
    m ∈ nodeNames (paths.foldl addPathStep
      (roles.foldl (addRoleStep admin)
        (groups.foldl (addGroupStep admin) g))) := by
  have h1 : m ∈ nodeNames (groups.foldl (addGroupStep admin) g) :=
    foldl_preserve _ (fun g => m ∈ nodeNames g)
      (fun g' gr h =>
        (mem_nodeNames_addNode g' gr.name ⟨"group", admin.contains gr.name, gr.arn⟩ m).mpr
          (Or.inl h)) groups g hm
  have h2 : m ∈ nodeNames (roles.foldl (addRoleStep admin)
      (groups.foldl (addGroupStep admin) g)) :=
    foldl_preserve _ (fun g => m ∈ nodeNames g)
      (fun g' r h =>
        (mem_nodeNames_addNode g' r.name ⟨"role", admin.contains r.name, r.arn⟩ m).mpr
          (Or.inl h)) roles _ h1
  exact foldl_preserve _ (fun g => m ∈ nodeNames g)
    (fun g' p h => mem_addPathStep g' p m h) paths _ h2

theorem mem_group_edge_fold (uname : String) :
    ∀ (gs : List String) (g : PGraph) (gn : String), gn ∈ gs →
      gn ∈ nodeNames (gs.foldl (fun acc x => addEdge acc uname x "member_of") g)
  | x :: gs, g, gn, hgn => by
    simp only [List.foldl_cons]
    rcases List.mem_cons.mp hgn with rfl | h
    · exact foldl_preserve _ (fun g => gn ∈ nodeNames g)
        (fun g' y h' => (mem_nodeNames_addEdge g' uname y "member_of" gn).mpr (Or.inl h'))
        gs _ ((mem_nodeNames_addEdge g uname gn "member_of" gn).mpr (Or.inr (Or.inr rfl)))
    · exact mem_group_edge_fold uname gs _ gn h

theorem mem_userLoop_groups (admin : List String) :
    ∀ (users : List User) (g : PGraph) (u : User) (gn : String),
      u ∈ users → gn ∈ u.groups →
        gn ∈ nodeNames (users.foldl (addUserStep admin) g)
  | u0 :: users, g, u, gn, hu, hgn => by
    simp only [List.foldl_cons]
    rcases List.mem_cons.mp hu with rfl | h
    · have base : gn ∈ nodeNames (addUserStep admin g u) := by
        unfold addUserStep
        exact mem_group_edge_fold u.name u.groups _ gn hgn
      exact foldl_preserve _ (fun g => gn ∈ nodeNames g)
        (fun g' x h => mem_addUserStep admin g' x gn h) users _ base
    · exact mem_userLoop_groups admin users _ u gn h hgn

theorem addPathEdges_cons (g : PGraph) (a b : String) (rest : List String) :
    addPathEdges g (a :: b :: rest)
      = addPathEdges (addEdge g a b "privilege_escalation") (b :: rest) := rfl

theorem mem_addPathEdges_of_mem (m : String) :
    ∀ (steps : List String) (g : PGraph), 2 ≤ steps.length → m ∈ steps →
      m ∈ nodeNames (addPathEdges g steps)
  | a :: b :: rest, g, _, hm => by
    rw [addPathEdges_cons]
    rcases List.mem_cons.mp hm with rfl | h
    · exact mem_addPathEdges_mono m (b :: rest) _
        ((mem_nodeNames_addEdge g m b "privilege_escalation" m).mpr (Or.inr (Or.inl rfl)))
    · cases rest with
      | nil =>
        rcases List.mem_cons.mp h with rfl | h2
        · exact (mem_nodeNames_addEdge g a m "privilege_escalation" m).mpr (Or.inr (Or.inr rfl))
        · cases h2
      | cons c rest2 =>
        exact mem_addPathEdges_of_mem m (b :: c :: rest2)
          (addEdge g a b "privilege_escalation") (by simp) h
termination_by steps => steps.length

theorem mem_pathLoop (m : String) :
    ∀ (paths : List PrivilegePath) (g : PGraph) (p : PrivilegePath),
      p ∈ paths → 2 ≤ p.path.length → m ∈ p.path →
        m ∈ nodeNames (paths.foldl addPathStep g)
  | p0 :: paths, g, p, hp, hlen, hm => by
    simp only [List.foldl_cons]
    rcases List.mem_cons.mp hp with rfl | h
    · have base : m ∈ nodeNames (addPathStep g p) := by
        unfold addPathStep
        rw [if_pos hlen]
        exact mem_addPathEdges_of_mem m p.path g hlen hm
      exact foldl_preserve _ (fun g => m ∈ nodeNames g)
        (fun g' x h => mem_addPathStep g' x m h) paths _ base
    · exact mem_pathLoop m paths _ p h hlen hm

/-! ## Claim C8 -/

/-- C8: graph assembly never fails on an edge whose endpoint is not a
scanned entity — every group name referenced by a user's membership list
and every element of every (length ≥ 2) privilege path ends up as a node
of the assembled graph. -/
theorem C8_edge_endpoints_become_nodes :
    ∀ (users : List User) (groups : List Group) (roles : List Role)
      (admin : List String) (paths : List PrivilegePath),
      (∀ u, u ∈ users → ∀ gn, gn ∈ u.groups →
        gn ∈ nodeNames (build_privilege_graph users groups roles admin paths)) ∧
      (∀ p, p ∈ paths → 2 ≤ p.path.length → ∀ x, x ∈ p.path →
        x ∈ nodeNames (build_privilege_graph users groups roles admin paths)) := by
  intro users groups roles admin paths
  constructor
  · intro u hu gn hgn
    exact mem_build_loops_mono admin groups roles paths _ gn
      (mem_userLoop_groups admin users _ u gn hu hgn)
  · intro p hp hlen x hx
    exact mem_pathLoop x paths _ p hp hlen hx

/-- A privilege path whose source endpoint matches no scanned entity. -/
def ghostPath : PrivilegePath :=
  ⟨"role_chain_admin", ["Ghost", "AdminRole"], "CRITICAL",
    "Role Ghost can assume admin role AdminRole"⟩

theorem C8_edge_endpoints_become_nodes_witness :
    "Admins" ∈ nodeNames (build_privilege_graph [aliceU] [] [] [] [ghostPath]) ∧
      "Ghost" ∈ nodeNames (build_privilege_graph [aliceU] [] [] [] [ghostPath]) := by
  obtain ⟨h1, h2⟩ := C8_edge_endpoints_become_nodes [aliceU] [] [] [] [ghostPath]
  exact ⟨h1 aliceU (by decide) "Admins" (by decide),
    h2 ghostPath (by decide) (by decide) "Ghost" (by decide)⟩

/-! ## Lemmas: edge deduplication and idempotence -/

theorem edgeKeyIs_self (u v rel : String) : edgeKeyIs u v (u, v, rel) = true := by
  simp [edgeKeyIs]

theorem ensureNode_of_mem (g : PGraph) (n : String) (h : n ∈ nodeNames g) :
    ensureNode g n = g := by
  unfold ensureNode
  rw [if_pos h]

theorem addEdge_edges (g : PGraph) (u v rel : String) :
    (addEdge g u v rel).edges =
      if g.edges.any (edgeKeyIs u v) then
        g.edges.map (fun e => if edgeKeyIs u v e then (u, v, rel) else e)
      else g.edges ++ [(u, v, rel)] := by
  simp only [addEdge, ensureNode_edges]
  split <;> rfl

theorem edge_update_map_idem (u v rel : String) :
    ∀ (l : List (String × String × String)),
      ((l.map fun e => if edgeKeyIs u v e then (u, v, rel) else e).map
          fun e => if edgeKeyIs u v e then (u, v, rel) else e)
        = l.map fun e => if edgeKeyIs u v e then (u, v, rel) else e
  | [] => rfl
  | e :: l => by
    by_cases hc : edgeKeyIs u v e = true
    · simp [hc, edgeKeyIs_self, edge_update_map_idem u v rel l]
    · simp [hc, edge_update_map_idem u v rel l]

theorem edge_update_map_id_of_not_any (u v rel : String) :
    ∀ (l : List (String × String × String)), l.any (edgeKeyIs u v) = false →
      l.map (fun e => if edgeKeyIs u v e then (u, v, rel) else e) = l
  | [], _ => rfl
  | e :: l, h => by
    rw [List.any_cons, Bool.or_eq_false_iff] at h
    simp [h.1, edge_update_map_id_of_not_any u v rel l h.2]

theorem any_edgeKey_map_update (u v rel : String) :
    ∀ (l : List (String × String × String)), l.any (edgeKeyIs u v) = true →
      (l.map fun e => if edgeKeyIs u v e then (u, v, rel) else e).any (edgeKeyIs u v) = true
  | e :: l, h => by
    by_cases hc : edgeKeyIs u v e = true
    · simp [hc, edgeKeyIs_self]
    · rw [List.any_cons, Bool.or_eq_true] at h
      rcases h with h | h
      · exact absurd h hc
      · simp [hc, any_edgeKey_map_update u v rel l h]

/-- Re-inserting an existing ordered edge with the same tag is a no-op. -/
theorem addEdge_idem (g : PGraph) (u v rel : String) :
    addEdge (addEdge g u v rel) u v rel = addEdge g u v rel := by
  have hu : u ∈ nodeNames (addEdge g u v rel) :=
    (mem_nodeNames_addEdge g u v rel u).mpr (Or.inr (Or.inl rfl))
  have hv : v ∈ nodeNames (addEdge g u v rel) :=
    (mem_nodeNames_addEdge g u v rel v).mpr (Or.inr (Or.inr rfl))
  have hany : (addEdge g u v rel).edges.any (edgeKeyIs u v) = true := by
    rw [addEdge_edges]
    split
    · exact any_edgeKey_map_update u v rel _ (by assumption)
    · simp [List.any_append, edgeKeyIs_self]
  have hmap : (addEdge g u v rel).edges.map
      (fun e => if edgeKeyIs u v e then (u, v, rel) else e) = (addEdge g u v rel).edges := by
    rw [addEdge_edges]
    split
    · exact edge_update_map_idem u v rel _
    · rename_i hc
      rw [List.map_append, edge_update_map_id_of_not_any u v rel _ (by simpa using hc)]
      simp [edgeKeyIs_self]
  conv_lhs => rw [addEdge]
  rw [ensureNode_of_mem _ u hu, ensureNode_of_mem _ v hv, if_pos hany, hmap]

/-- The ordered endpoint pairs of the graph's edges. -/
def edgeKeys (g : PGraph) : List (String × String) :=
  g.edges.map (fun e => (e.1, e.2.1))

theorem key_map_update (u v rel : String) :
    ∀ (l : List (String × String × String)),
      ((l.map fun e => if edgeKeyIs u v e then (u, v, rel) else e).map
          fun e => (e.1, e.2.1))
        = l.map (fun e => (e.1, e.2.1))
  | [] => rfl
  | e :: l => by
    by_cases hc : edgeKeyIs u v e = true
    · have h1 : e.1 = u ∧ e.2.1 = v := by
        simpa [edgeKeyIs] using hc
      simp [hc, key_map_update u v rel l, h1.1, h1.2]
    · simp [hc, key_map_update u v rel l]

theorem not_mem_keys_of_not_any (u v : String) :
    ∀ (l : List (String × String × String)), l.any (edgeKeyIs u v) = false →
      (u, v) ∉ l.map (fun e => (e.1, e.2.1))
  | [], _ => by simp
  | e :: l, h => by
    rw [List.any_cons, Bool.or_eq_false_iff] at h
    have h1 : ¬(e.1 = u ∧ e.2.1 = v) := by
      simpa [edgeKeyIs] using h.1
    simp only [List.map_cons, List.mem_cons]
    rintro (he | hmem)
    · exact h1 ⟨congrArg Prod.fst he.symm, congrArg Prod.snd he.symm⟩
    · exact not_mem_keys_of_not_any u v l h.2 hmem

theorem edgeKeys_nodup_addEdge (g : PGraph) (u v rel : String)
    (h : (edgeKeys g).Nodup) : (edgeKeys (addEdge g u v rel)).Nodup := by
  unfold edgeKeys at *
  rw [addEdge_edges]
  split
  · rw [key_map_update]
    exact h
  · rename_i hc
    rw [List.map_append]
    rw [List.nodup_append]
    refine ⟨h, List.nodup_singleton _, ?_⟩
    intro k hk hk1
    simp only [List.map_cons, List.map_nil, List.mem_singleton] at hk1
    subst hk1
    exact not_mem_keys_of_not_any u v g.edges (by simpa using hc) hk

theorem edgeKeys_nodup_addNode (g : PGraph) (n : String) (a : NodeAttrs)
    (h : (edgeKeys g).Nodup) : (edgeKeys (addNode g n a)).Nodup := by
  unfold edgeKeys
  rw [addNode_edges]
  exact h

theorem edgeKeys_nodup_addPathEdges :
    ∀ (steps : List String) (g : PGraph),
      (edgeKeys g).Nodup → (edgeKeys (addPathEdges g steps)).Nodup
  | [], _, h => h
  | [_], _, h => h
  | a :: b :: rest, g, h =>
    edgeKeys_nodup_addPathEdges (b :: rest) (addEdge g a b "privilege_escalation")
      (edgeKeys_nodup_addEdge g a b "privilege_escalation" h)

theorem edgeKeys_nodup_addUserStep (admin : List String) (g : PGraph) (u : User)
    (h : (edgeKeys g).Nodup) : (edgeKeys (addUserStep admin g u)).Nodup := by
  unfold addUserStep
  refine foldl_preserve _ (fun g => (edgeKeys g).Nodup)
    (fun g' x h' => edgeKeys_nodup_addEdge g' u.name x "member_of" h') u.groups _ ?_
  exact edgeKeys_nodup_addNode g u.name _ h

theorem edgeKeys_nodup_build (users : List User) (groups : List Group)
    (roles : List Role) (admin : List String) (paths : List PrivilegePath) :
    (edgeKeys (build_privilege_graph users groups roles admin paths)).Nodup := by
  have h0 : (edgeKeys (⟨[], []⟩ : PGraph)).Nodup := by
    simp [edgeKeys]
  have h1 : (edgeKeys (users.foldl (addUserStep admin) ⟨[], []⟩)).Nodup :=
    foldl_preserve _ (fun g => (edgeKeys g).Nodup)
      (fun g' x h' => edgeKeys_nodup_addUserStep admin g' x h') users _ h0
  have h2 : (edgeKeys (groups.foldl (addGroupStep admin)
      (users.foldl (addUserStep admin) ⟨[], []⟩))).Nodup :=
    foldl_preserve _ (fun g => (edgeKeys g).Nodup)
      (fun g' x h' =>
        edgeKeys_nodup_addNode g' x.name ⟨"group", admin.contains x.name, x.arn⟩ h')
      groups _ h1
  have h3 : (edgeKeys (roles.foldl (addRoleStep admin) (groups.foldl (addGroupStep admin)
      (users.foldl (addUserStep admin) ⟨[], []⟩)))).Nodup :=
    foldl_preserve _ (fun g => (edgeKeys g).Nodup)
      (fun g' x h' =>
        edgeKeys_nodup_addNode g' x.name ⟨"role", admin.contains x.name, x.arn⟩ h')
      roles _ h2
  refine foldl_preserve _ (fun g => (edgeKeys g).Nodup) ?_ paths _ h3
  intro g' p h'
  unfold addPathStep
  split
  · exact edgeKeys_nodup_addPathEdges p.path g' h'
  · exact h'

/-! ## Claim C9 -/

/-- C9: assembly is deterministic (a pure function of its input), edge
insertion is idempotent (`add_edge` of an existing ordered pair with the
same tag changes nothing), and the assembled graph never holds two edges
with the same ordered endpoint pair. -/
theorem C9_assembly_deterministic_idempotent :
    ∀ (users : List User) (groups : List Group) (roles : List Role)
      (admin : List String) (paths : List PrivilegePath),
      build_privilege_graph users groups roles admin paths
          = build_privilege_graph users groups roles admin paths ∧
      (∀ (g : PGraph) (u v rel : String),
        addEdge (addEdge g u v rel) u v rel = addEdge g u v rel) ∧
      (edgeKeys (build_privilege_graph users groups roles admin paths)).Nodup := by
  intro users groups roles admin paths
  exact ⟨rfl, fun g u v rel => addEdge_idem g u v rel,
    edgeKeys_nodup_build users groups roles admin paths⟩

/-! ## Lemmas: node attribute lookup (for claim C10) -/

/-- The attribute dict of node `n`: `none` when the node is absent,
`some none` for a node auto-created by `add_edge` (empty attribute dict),
`some (some a)` for a node whose attributes were set by `add_node`. -/
def nodeAttr (g : PGraph) (n : String) : Option (Option NodeAttrs) :=
  g.nodes.lookup n

theorem lookup_cons (k : String) (v : Option NodeAttrs)
    (l : List (String × Option NodeAttrs)) (m : String) :
    ((k, v) :: l).lookup m = if m = k then some v else l.lookup m := by
  by_cases h : m = k
  · have hb : (m == k) = true := by simp [h]
    simp [List.lookup, hb, h]
  · have hb : (m == k) = false := by simp [h]
    simp [List.lookup, hb, h]

theorem lookup_append_nodes :
    ∀ (l1 l2 : List (String × Option NodeAttrs)) (m : String),
      (l1 ++ l2).lookup m =
        match l1.lookup m with
        | some v => some v
        | none => l2.lookup m
  | [], _, _ => rfl
  | (k, w) :: l1, l2, m => by
    rw [List.cons_append, lookup_cons, lookup_cons]
    by_cases h : m = k
    · simp [h]
    · rw [if_neg h, if_neg h]
      exact lookup_append_nodes l1 l2 m

theorem lookup_none_of_not_mem_keys :
    ∀ (l : List (String × Option NodeAttrs)) (m : String),
      m ∉ l.map (fun p => p.1) → l.lookup m = none
  | [], _, _ => rfl
  | (k, w) :: l, m, h => by
    simp only [List.map_cons, List.mem_cons] at h
    push_neg at h
    rw [lookup_cons, if_neg h.1]
    exact lookup_none_of_not_mem_keys l m h.2

theorem lookup_map_upd_ne (n : String) (a : NodeAttrs) (m : String) (hm : m ≠ n) :
    ∀ (l : List (String × Option NodeAttrs)),
      (l.map (fun p => if p.1 = n then (n, some a) else p)).lookup m = l.lookup m
  | [] => rfl
  | (k, w) :: l => by
    simp only [List.map_cons]
    by_cases h : k = n
    · subst h
      have hhead : (if ((k, w) : String × Option NodeAttrs).1 = k
          then (k, some a) else (k, w)) = (k, some a) := by simp
      rw [hhead, lookup_cons, lookup_cons, if_neg hm, if_neg hm]
      exact lookup_map_upd_ne k a m hm l
    · have hhead : (if ((k, w) : String × Option NodeAttrs).1 = n
          then (n, some a) else (k, w)) = (k, w) := by simp [h]
      rw [hhead, lookup_cons, lookup_cons]
      by_cases hmk : m = k
      · rw [if_pos hmk, if_pos hmk]
      · rw [if_neg hmk, if_neg hmk]
        exact lookup_map_upd_ne n a m hm l

theorem lookup_map_upd_self (n : String) (a : NodeAttrs) :
    ∀ (l : List (String × Option NodeAttrs)),
      n ∈ l.map (fun p => p.1) →
        (l.map (fun p => if p.1 = n then (n, some a) else p)).lookup n = some (some a)
  | (k, w) :: l, h => by
    simp only [List.map_cons]
    by_cases hp : k = n
    · subst hp
      have hhead : (if ((k, w) : String × Option NodeAttrs).1 = k
          then (k, some a) else (k, w)) = (k, some a) := by simp
      rw [hhead, lookup_cons, if_pos rfl]
    · have hhead : (if ((k, w) : String × Option NodeAttrs).1 = n
          then (n, some a) else (k, w)) = (k, w) := by simp [hp]
      rw [hhead, lookup_cons, if_neg (fun hnk => hp hnk.symm)]
      refine lookup_map_upd_self n a l ?_
      simp only [List.map_cons, List.mem_cons] at h
      rcases h with h | h
      · exact absurd h.symm hp
      · exact h

theorem nodeAttr_addNode (g : PGraph) (n : String) (a : NodeAttrs) (m : String) :
    nodeAttr (addNode g n a) m = if m = n then some (some a) else nodeAttr g m := by
  unfold nodeAttr addNode
  split <;> rename_i hmem
  · by_cases hm : m = n
    · subst hm
      rw [if_pos rfl]
      exact lookup_map_upd_self m a g.nodes hmem
    · rw [if_neg hm]
      exact lookup_map_upd_ne n a m hm g.nodes
  · rw [lookup_append_nodes]
    by_cases hm : m = n
    · subst hm
      rw [lookup_none_of_not_mem_keys g.nodes m hmem, if_pos rfl, lookup_cons, if_pos rfl]
    · rw [if_neg hm]
      cases h : g.nodes.lookup m with
      | some v => rfl
      | none =>
        rw [lookup_cons, if_neg hm]
        rfl

theorem nodeAttr_ensureNode_some (g : PGraph) (n m : String) (v : Option NodeAttrs)
    (h : nodeAttr g m = some v) : nodeAttr (ensureNode g n) m = some v := by
  unfold nodeAttr ensureNode at *
  split
  · exact h
  · rw [lookup_append_nodes, h]

theorem nodeAttr_addEdge_some (g : PGraph) (u v rel m : String) (w : Option NodeAttrs)
    (h : nodeAttr g m = some w) : nodeAttr (addEdge g u v rel) m = some w := by
  have hn : nodeAttr (addEdge g u v rel) m
      = nodeAttr (ensureNode (ensureNode g u) v) m := by
    unfold nodeAttr
    rw [addEdge_nodes]
  rw [hn]
  exact nodeAttr_ensureNode_some _ v m w (nodeAttr_ensureNode_some g u m w h)

theorem nodeAttr_addPathEdges_some (m : String) (w : Option NodeAttrs) :
    ∀ (steps : List String) (g : PGraph), nodeAttr g m = some w →
      nodeAttr (addPathEdges g steps) m = some w
  | [], _, h => h
  | [_], _, h => h
  | a :: b :: rest, g, h =>
    nodeAttr_addPathEdges_some m w (b :: rest) (addEdge g a b "privilege_escalation")
      (nodeAttr_addEdge_some g a b "privilege_escalation" m w h)

theorem nodeAttr_pathLoop_some (m : String) (w : Option NodeAttrs)
    (paths : List PrivilegePath) (g : PGraph) (h : nodeAttr g m = some w) :
    nodeAttr (paths.foldl addPathStep g) m = some w := by
  refine foldl_preserve _ (fun g => nodeAttr g m = some w) ?_ paths g h
  intro g' p h'
  unfold addPathStep
  split
  · exact nodeAttr_addPathEdges_some m w p.path g' h'
  · exact h'

/-- Node attributes written by the role loop. -/
def roleAttrs (admin : List String) (r : Role) : NodeAttrs :=
  ⟨"role", admin.contains r.name, r.arn⟩

/-- Node attributes written by the group loop. -/
def groupAttrs (admin : List String) (gr : Group) : NodeAttrs :=
  ⟨"group", admin.contains gr.name, gr.arn⟩

theorem find_append {α : Type} (p : α → Bool) :
    ∀ (l1 l2 : List α),
      (l1 ++ l2).find? p =
        match l1.find? p with
        | some x => some x
        | none => l2.find? p
  | [], _ => rfl
  | x :: l1, l2 => by
    by_cases h : p x
    · simp [List.find?, h]
    · simp only [List.cons_append, List.find?, Bool.not_eq_true] at *
      rw [h]
      exact find_append p l1 l2

/-- After the role loop, a node's attributes are those of the **last**
role bearing its name, when one exists; otherwise they are untouched. -/
theorem nodeAttr_roleLoop (admin : List String) :
    ∀ (rs : List Role) (g : PGraph) (m : String),
      nodeAttr (rs.foldl (addRoleStep admin) g) m =
        match rs.reverse.find? (fun r => r.name == m) with
        | some r => some (some (roleAttrs admin r))
        | none => nodeAttr g m
  | [], _, _ => rfl
  | r :: rs, g, m => by
    simp only [List.foldl_cons, List.reverse_cons]
    rw [nodeAttr_roleLoop admin rs, find_append]
    cases h : rs.reverse.find? (fun r => r.name == m) with
    | some r2 => rfl
    | none =>
      by_cases hm : r.name = m
      · have hb : (r.name == m) = true := by simp [hm]
        have hfind : ([r].find? (fun r => r.name == m)) = some r := by
          simp [List.find?, hb]
        rw [hfind]
        unfold addRoleStep
        rw [nodeAttr_addNode, if_pos hm.symm]
        simp [roleAttrs, hm]
      · have hb : (r.name == m) = false := by simp [hm]
        have hfind : ([r].find? (fun r => r.name == m)) = none := by
          simp [List.find?, hb]
        rw [hfind]
        unfold addRoleStep
        rw [nodeAttr_addNode, if_neg (fun hmr => hm hmr.symm)]

/-- After the group loop, a node's attributes are those of the last group
bearing its name, when one exists; otherwise they are untouched. -/
theorem nodeAttr_groupLoop (admin : List String) :
    ∀ (gs : List Group) (g : PGraph) (m : String),
      nodeAttr (gs.foldl (addGroupStep admin) g) m =
        match gs.reverse.find? (fun gr => gr.name == m) with
        | some gr => some (some (groupAttrs admin gr))
        | none => nodeAttr g m
  | [], _, _ => rfl
  | gr :: gs, g, m => by
    simp only [List.foldl_cons, List.reverse_cons]
    rw [nodeAttr_groupLoop admin gs, find_append]
    cases h : gs.reverse.find? (fun gr => gr.name == m) with
    | some g2 => rfl
    | none =>
      by_cases hm : gr.name = m
      · have hb : (gr.name == m) = true := by simp [hm]
        have hfind : ([gr].find? (fun gr => gr.name == m)) = some gr := by
          simp [List.find?, hb]
        rw [hfind]
        unfold addGroupStep
        rw [nodeAttr_addNode, if_pos hm.symm]
        simp [groupAttrs, hm]
      · have hb : (gr.name == m) = false := by simp [hm]
        have hfind : ([gr].find? (fun gr => gr.name == m)) = none := by
          simp [List.find?, hb]
        rw [hfind]
        unfold addGroupStep
        rw [nodeAttr_addNode, if_neg (fun hmr => hm hmr.symm)]

/-! ## Lemmas: node-name uniqueness -/

theorem namesNodup_addNode (g : PGraph) (n : String) (a : NodeAttrs)
    (h : (nodeNames g).Nodup) : (nodeNames (addNode g n a)).Nodup := by
  rw [nodeNames_addNode]
  split <;> rename_i hmem
  · exact h
  · rw [List.nodup_append]
    refine ⟨h, List.nodup_singleton _, ?_⟩
    intro x hx hx1
    rw [List.mem_singleton] at hx1
    subst hx1
    exact hmem hx

theorem namesNodup_ensureNode (g : PGraph) (n : String)
    (h : (nodeNames g).Nodup) : (nodeNames (ensureNode g n)).Nodup := by
  rw [nodeNames_ensureNode]
  split <;> rename_i hmem
  · exact h
  · rw [List.nodup_append]
    refine ⟨h, List.nodup_singleton _, ?_⟩
    intro x hx hx1
    rw [List.mem_singleton] at hx1
    subst hx1
    exact hmem hx

theorem namesNodup_addEdge (g : PGraph) (u v rel : String)
    (h : (nodeNames g).Nodup) : (nodeNames (addEdge g u v rel)).Nodup := by
  have hn : nodeNames (addEdge g u v rel) = nodeNames (ensureNode (ensureNode g u) v) := by
    unfold nodeNames
    rw [addEdge_nodes]
  rw [hn]
  exact namesNodup_ensureNode _ v (namesNodup_ensureNode g u h)

theorem namesNodup_addPathEdges :
    ∀ (steps : List String) (g : PGraph),
      (nodeNames g).Nodup → (nodeNames (addPathEdges g steps)).Nodup
  | [], _, h => h
  | [_], _, h => h
  | a :: b :: rest, g, h =>
    namesNodup_addPathEdges (b :: rest) (addEdge g a b "privilege_escalation")
      (namesNodup_addEdge g a b "privilege_escalation" h)

theorem namesNodup_build (users : List User) (groups : List Group)
    (roles : List Role) (admin : List String) (paths : List PrivilegePath) :
    (nodeNames (build_privilege_graph users groups roles admin paths)).Nodup := by
  have h0 : (nodeNames (⟨[], []⟩ : PGraph)).Nodup := by
    simp [nodeNames]
  have h1 : (nodeNames (users.foldl (addUserStep admin) ⟨[], []⟩)).Nodup := by
    refine foldl_preserve _ (fun g => (nodeNames g).Nodup) ?_ users _ h0
    intro g' u h'
    unfold addUserStep
    refine foldl_preserve _ (fun g => (nodeNames g).Nodup)
      (fun g2 x h2 => namesNodup_addEdge g2 u.name x "member_of" h2) u.groups _ ?_
    exact namesNodup_addNode g' u.name _ h'
  have h2 : (nodeNames (groups.foldl (addGroupStep admin)
      (users.foldl (addUserStep admin) ⟨[], []⟩))).Nodup :=
    foldl_preserve _ (fun g => (nodeNames g).Nodup)
      (fun g' x h' =>
        namesNodup_addNode g' x.name ⟨"group", admin.contains x.name, x.arn⟩ h')
      groups _ h1
  have h3 : (nodeNames (roles.foldl (addRoleStep admin) (groups.foldl (addGroupStep admin)
      (users.foldl (addUserStep admin) ⟨[], []⟩)))).Nodup :=
    foldl_preserve _ (fun g => (nodeNames g).Nodup)
      (fun g' x h' =>
        namesNodup_addNode g' x.name ⟨"role", admin.contains x.name, x.arn⟩ h')
      roles _ h2
  refine foldl_preserve _ (fun g => (nodeNames g).Nodup) ?_ paths _ h3
  intro g' p h'
  unfold addPathStep
  split
  · exact namesNodup_addPathEdges p.path g' h'
  · exact h'

theorem mem_keys_of_lookup_some :
    ∀ (l : List (String × Option NodeAttrs)) (m : String) (v : Option NodeAttrs),
      l.lookup m = some v → m ∈ l.map (fun p => p.1)
  | (k, w) :: l, m, v, h => by
    rw [lookup_cons] at h
    by_cases hmk : m = k
    · simp [hmk]
    · rw [if_neg hmk] at h
      simp only [List.map_cons, List.mem_cons]
      exact Or.inr (mem_keys_of_lookup_some l m v h)

theorem find_uniq {α : Type} (p : α → Bool) :
    ∀ (l : List α) (x : α), x ∈ l → p x = true →
      (∀ y, y ∈ l → p y = true → y = x) → l.find? p = some x
  | z :: l, x, hx, hpx, huniq => by
    by_cases hz : p z = true
    · have hzx : z = x := huniq z (List.mem_cons_self z l) hz
      subst hzx
      simp [List.find?, hz]
    · have hzf : p z = false := by
        simpa using hz
      simp only [List.find?, hzf]
      rcases List.mem_cons.mp hx with rfl | hxl
      · exact absurd hpx hz
      · exact find_uniq p l x hxl hpx (fun y hy hp => huniq y (List.mem_cons_of_mem z hy) hp)

/-! ## Claim C10 -/

/-- C10: on a cross-type name collision the assembled graph holds exactly
one node for the shared name, whose attributes are those of the
last-inserted entity: a role overwrites a same-named group or user (or
both), and a group overwrites a same-named user when no role shares the
name. No operation fails and no second node is created. -/
theorem C10_collision_single_node_last_wins :
    ∀ (users : List User) (groups : List Group) (roles : List Role)
      (admin : List String) (paths : List PrivilegePath),
      (∀ (r : Role), r ∈ roles →
        (∀ r2, r2 ∈ roles → r2.name = r.name → r2 = r) →
        ((∃ u, u ∈ users ∧ u.name = r.name) ∨ (∃ gr, gr ∈ groups ∧ gr.name = r.name)) →
          (nodeNames (build_privilege_graph users groups roles admin paths)).count r.name = 1 ∧
          nodeAttr (build_privilege_graph users groups roles admin paths) r.name
            = some (some (roleAttrs admin r))) ∧
      (∀ (gr : Group), gr ∈ groups →
        (∀ g2, g2 ∈ groups → g2.name = gr.name → g2 = gr) →
        (∀ r, r ∈ roles → r.name ≠ gr.name) →
        (∃ u, u ∈ users ∧ u.name = gr.name) →
          (nodeNames (build_privilege_graph users groups roles admin paths)).count gr.name = 1 ∧
          nodeAttr (build_privilege_graph users groups roles admin paths) gr.name
            = some (some (groupAttrs admin gr))) := by
  intro users groups roles admin paths
  constructor
  · intro r hr huniq hcollide
    have hfind : roles.reverse.find? (fun y => y.name == r.name) = some r :=
      find_uniq _ roles.reverse r (List.mem_reverse.mpr hr) (by simp)
        (fun y hy hp => huniq y (List.mem_reverse.mp hy) (by simpa using hp))
    have hrole : nodeAttr (roles.foldl (addRoleStep admin)
        (groups.foldl (addGroupStep admin)
          (users.foldl (addUserStep admin) ⟨[], []⟩))) r.name
        = some (some (roleAttrs admin r)) := by
      rw [nodeAttr_roleLoop admin roles _ r.name, hfind]
    have hattr : nodeAttr (build_privilege_graph users groups roles admin paths) r.name
        = some (some (roleAttrs admin r)) := by
      unfold build_privilege_graph
      exact nodeAttr_pathLoop_some r.name _ paths _ hrole
    refine ⟨?_, hattr⟩
    exact List.count_eq_one_of_mem
      (namesNodup_build users groups roles admin paths)
      (mem_keys_of_lookup_some _ r.name _ hattr)
  · intro gr hgr huniq hnorole hcollide
    have hfindr : roles.reverse.find? (fun y => y.name == gr.name) = none := by
      rw [List.find?_eq_none]
      intro r hr
      simp only [beq_iff_eq]
      exact hnorole r (List.mem_reverse.mp hr)
    have hfindg : groups.reverse.find? (fun y => y.name == gr.name) = some gr :=
      find_uniq _ groups.reverse gr (List.mem_reverse.mpr hgr) (by simp)
        (fun y hy hp => huniq y (List.mem_reverse.mp hy) (by simpa using hp))
    have hgrp : nodeAttr (groups.foldl (addGroupStep admin)
        (users.foldl (addUserStep admin) ⟨[], []⟩)) gr.name
        = some (some (groupAttrs admin gr)) := by
      rw [nodeAttr_groupLoop admin groups _ gr.name, hfindg]
    have hrole : nodeAttr (roles.foldl (addRoleStep admin)
        (groups.foldl (addGroupStep admin)
          (users.foldl (addUserStep admin) ⟨[], []⟩))) gr.name
        = some (some (groupAttrs admin gr)) := by
      rw [nodeAttr_roleLoop admin roles _ gr.name, hfindr]
      exact hgrp
    have hattr : nodeAttr (build_privilege_graph users groups roles admin paths) gr.name
        = some (some (groupAttrs admin gr)) := by
      unfold build_privilege_graph
      exact nodeAttr_pathLoop_some gr.name _ paths _ hrole
    refine ⟨?_, hattr⟩
    exact List.count_eq_one_of_mem
      (namesNodup_build users groups roles admin paths)
      (mem_keys_of_lookup_some _ gr.name _ hattr)

def wUserY : User := ⟨"Y", "arn:uy", [], []⟩

def wGroupY : Group := ⟨"Y", "arn:gy", []⟩

def wGroupX : Group := ⟨"X", "arn:gx", []⟩

def wRoleX : Role := ⟨"X", "arn:rx", [], []⟩

theorem C10_collision_single_node_last_wins_witness :
    ((nodeNames (build_privilege_graph [wUserY] [wGroupY, wGroupX] [wRoleX] [] [])).count "X" = 1 ∧
      nodeAttr (build_privilege_graph [wUserY] [wGroupY, wGroupX] [wRoleX] [] []) "X"
        = some (some (roleAttrs [] wRoleX))) ∧
    ((nodeNames (build_privilege_graph [wUserY] [wGroupY, wGroupX] [wRoleX] [] [])).count "Y" = 1 ∧
      nodeAttr (build_privilege_graph [wUserY] [wGroupY, wGroupX] [wRoleX] [] []) "Y"
        = some (some (groupAttrs [] wGroupY))) := by
  obtain ⟨h1, h2⟩ :=
    C10_collision_single_node_last_wins [wUserY] [wGroupY, wGroupX] [wRoleX] [] []
  exact ⟨h1 wRoleX (by decide) (by decide) (Or.inr ⟨wGroupX, by decide, rfl⟩),
    h2 wGroupY (by decide) (by decide) (by decide) ⟨wUserY, by decide, rfl⟩⟩

/-! ## Spec-level views of the trust-policy parser (claims C3, C6, C7) -/

/-- `statement.get('Effect') == 'Allow'` for an arbitrary value
(`False` on a non-dict, matching Python's `==`). -/
def isAllowStmt (stmt : JValue) : Bool :=
  match stmt with
  | .obj fs => jEqStrB ((fs.lookup "Effect").getD .null) "Allow"
  | _ => false

/-- `statement.get('Principal', {})` (a placeholder `null` on a non-dict,
where the real code would have raised before reading it). -/
def principalOfStmt (stmt : JValue) : JValue :=
  match stmt with
  | .obj fs => (fs.lookup "Principal").getD (.obj [])
  | _ => .null

/-- The elements an `extend` would contribute, or `[]` where it raises. -/
def extendElems (v : JValue) : List JValue :=
  match pyExtendList v with
  | .ok xs => xs
  | .error _ => []

/-- Upper bound on what one statement's `key` block can contribute. -/
def keyUpper (principal : JValue) (key : String) : List JValue :=
  match principal with
  | .obj pfs =>
    match pfs.lookup key with
    | some v => extendElems (normalizePrincipalVal v)
    | none => []
  | _ => []

/-- Upper bound on what one Allow statement can contribute. -/
def allowStmtUpper (stmt : JValue) : List JValue :=
  keyUpper (principalOfStmt stmt) "AWS" ++ keyUpper (principalOfStmt stmt) "Service"

/-- The statement stream the `for` loop iterates (characters of a string,
keys of a dict, elements of a list; empty where iteration raises at once). -/
def docStatements (doc : JValue) : List JValue :=
  match doc with
  | .obj fs =>
    match (fs.lookup "Statement").getD (.arr []) with
    | .arr l => l
    | .str s => s.data.map (fun c => .str (String.mk [c]))
    | .obj fs2 => fs2.map (fun kv => .str kv.1)
    | _ => []
  | _ => []

/-- `exlist` reads the observable `trusted` list out of the try-block
result: the normal value, or the partial list the handler returns. -/
def exlist (r : Except (List JValue) (List JValue)) : List JValue :=
  match r with
  | .ok l => l
  | .error l => l

/-- A `Principal.AWS` / `Principal.Service` value of the documented shape:
a single string or a list of strings. -/
def wfPrincipalVal (v : JValue) : Bool :=
  match v with
  | .str _ => true
  | .arr xs => xs.all (fun x => isinstanceStr x)
  | _ => false

/-- A statement the parser processes without raising: a dict whose
Principal (when the statement is an Allow statement) is a dict with
well-shaped `AWS` / `Service` values. -/
def wfStatement (stmt : JValue) : Bool :=
  match stmt with
  | .obj fs =>
    if jEqStrB ((fs.lookup "Effect").getD .null) "Allow" then
      match (fs.lookup "Principal").getD (.obj []) with
      | .obj pfs =>
        (match pfs.lookup "AWS" with
         | some v => wfPrincipalVal v
         | none => true) &&
        (match pfs.lookup "Service" with
         | some v => wfPrincipalVal v
         | none => true)
      | _ => false
    else true
  | _ => false

/-- A document whose `Statement` entry is a list of well-shaped statements. -/
def wfDoc (doc : JValue) : Bool :=
  match doc with
  | .obj fs =>
    match (fs.lookup "Statement").getD (.arr []) with
    | .arr stmts => stmts.all wfStatement
    | _ => false
  | _ => false

/-- Spec wording (claim C6): a string-or-list value normalized to a list. -/
def principalList (v : JValue) : List JValue :=
  match v with
  | .str s => [.str s]
  | .arr xs => xs
  | _ => []

/-- Spec wording (claim C6): the principals one statement contributes —
`AWS` then `Service` values of an Allow statement, normalized. -/
def stmtListedPrincipals (stmt : JValue) : List JValue :=
  if isAllowStmt stmt then
    match principalOfStmt stmt with
    | .obj pfs =>
      (match pfs.lookup "AWS" with
       | some v => principalList v
       | none => []) ++
      (match pfs.lookup "Service" with
       | some v => principalList v
       | none => [])
    | _ => []
  else []

/-- Spec wording (claim C6): all principals of all Allow statements, in
statement order. -/
def listedPrincipals (doc : JValue) : List JValue :=
  ((docStatements doc).map stmtListedPrincipals).flatten

/-! ## Lemmas: claim C3 (only Allow statements contribute) -/

theorem any_key_eq_lookup_isSome :
    ∀ (fs : List (String × JValue)) (x : String),
      (fs.any (fun kv => kv.1 = x)) = (fs.lookup x).isSome
  | [], _ => rfl
  | (k, v) :: fs, x => by
    by_cases h : k = x
    · have hb : (x == k) = true := by simp [h]
      simp [List.any_cons, List.lookup, h, hb]
    · have hb : (x == k) = false := by
        simp
        exact fun hx => h hx.symm
      simp [List.any_cons, List.lookup, h, hb, any_key_eq_lookup_isSome fs x]

theorem mem_exlist_extendFromKey (principal : JValue) (key : String)
    (acc : List JValue) (p : JValue)
    (hp : p ∈ exlist (extendFromKey principal key acc)) :
    p ∈ acc ∨ p ∈ keyUpper principal key := by
  cases principal with
  | obj pfs =>
    simp only [extendFromKey, pyIn] at hp
    rw [any_key_eq_lookup_isSome] at hp
    cases hlk : pfs.lookup key with
    | none =>
      rw [hlk] at hp
      simp only [Option.isSome_none, Bool.false_eq_true, if_false, exlist] at hp
      exact Or.inl hp
    | some v =>
      rw [hlk] at hp
      simp only [Option.isSome_some, if_true] at hp
      simp only [pySubscript, hlk] at hp
      cases hext : pyExtendList (normalizePrincipalVal v) with
      | error e =>
        rw [hext] at hp
        exact Or.inl hp
      | ok xs =>
        rw [hext] at hp
        simp only [exlist] at hp
        rcases List.mem_append.mp hp with h | h
        · exact Or.inl h
        · refine Or.inr ?_
          simp only [keyUpper, hlk, extendElems, hext]
          exact h
  | arr xs =>
    simp only [extendFromKey, pyIn, pySubscript] at hp
    split at hp <;> exact Or.inl hp
  | str s =>
    simp only [extendFromKey, pyIn, pySubscript] at hp
    split at hp <;> exact Or.inl hp
  | num n => exact Or.inl hp
  | bool b => exact Or.inl hp
  | null => exact Or.inl hp

theorem mem_exlist_processStatement (stmt : JValue) (acc : List JValue) (p : JValue)
    (hp : p ∈ exlist (processStatement stmt acc)) :
    p ∈ acc ∨ (isAllowStmt stmt = true ∧ p ∈ allowStmtUpper stmt) := by
  cases stmt with
  | obj fs =>
    simp only [processStatement, pyDictGet] at hp
    by_cases hall : jEqStrB ((fs.lookup "Effect").getD .null) "Allow" = true
    · rw [if_pos hall] at hp
      have hallow : isAllowStmt (.obj fs) = true := hall
      have hprin : principalOfStmt (.obj fs) = (fs.lookup "Principal").getD (.obj []) := rfl
      cases hA : extendFromKey ((fs.lookup "Principal").getD (.obj [])) "AWS" acc with
      | error a =>
        rw [hA] at hp
        have := mem_exlist_extendFromKey _ "AWS" acc p (by rw [hA]; exact hp)
        rcases this with h | h
        · exact Or.inl h
        · refine Or.inr ⟨hallow, ?_⟩
          simp only [allowStmtUpper, hprin]
          exact List.mem_append.mpr (Or.inl h)
      | ok acc1 =>
        rw [hA] at hp
        have h2 := mem_exlist_extendFromKey _ "Service" acc1 p hp
        rcases h2 with h2 | h2
        · have h1 := mem_exlist_extendFromKey _ "AWS" acc p (by rw [hA]; exact h2)
          rcases h1 with h1 | h1
          · exact Or.inl h1
          · refine Or.inr ⟨hallow, ?_⟩
            simp only [allowStmtUpper, hprin]
            exact List.mem_append.mpr (Or.inl h1)
        · refine Or.inr ⟨hallow, ?_⟩
          simp only [allowStmtUpper, hprin]
          exact List.mem_append.mpr (Or.inr h2)
    · rw [if_neg hall] at hp
      exact Or.inl hp
  | arr xs => exact Or.inl hp
  | str s => exact Or.inl hp
  | num n => exact Or.inl hp
  | bool b => exact Or.inl hp
  | null => exact Or.inl hp

theorem mem_exlist_parseLoop :
    ∀ (stmts : List JValue) (acc : List JValue) (p : JValue),
      p ∈ exlist (parseLoop stmts acc) →
        p ∈ acc ∨ ∃ st, st ∈ stmts ∧ isAllowStmt st = true ∧ p ∈ allowStmtUpper st
  | [], acc, p, hp => Or.inl hp
  | st :: stmts, acc, p, hp => by
    simp only [parseLoop] at hp
    cases hps : processStatement st acc with
    | error a =>
      rw [hps] at hp
      rcases mem_exlist_processStatement st acc p (by rw [hps]; exact hp) with h | h
      · exact Or.inl h
      · exact Or.inr ⟨st, List.mem_cons_self st stmts, h.1, h.2⟩
    | ok acc1 =>
      rw [hps] at hp
      rcases mem_exlist_parseLoop stmts acc1 p hp with h | ⟨st2, hst2, hall, hmem⟩
      · rcases mem_exlist_processStatement st acc p (by rw [hps]; exact h) with h1 | h1
        · exact Or.inl h1
        · exact Or.inr ⟨st, List.mem_cons_self st stmts, h1.1, h1.2⟩
      · exact Or.inr ⟨st2, List.mem_cons_of_mem st hst2, hall, hmem⟩

theorem trustedPrincipals_eq_exlist (tp : JValue) :
    trustedPrincipals tp = exlist (parseInner tp) := by
  unfold trustedPrincipals parse_trust_policy exlist
  cases parseInner tp <;> rfl

theorem mem_trusted_of_statements (doc : JValue) (p : JValue)
    (hp : p ∈ trustedPrincipals doc) :
    ∃ st, st ∈ docStatements doc ∧ isAllowStmt st = true ∧ p ∈ allowStmtUpper st := by
  rw [trustedPrincipals_eq_exlist] at hp
  cases doc with
  | obj fs =>
    simp only [parseInner, pyDictGet, docStatements] at hp ⊢
    cases hstv : (fs.lookup "Statement").getD (.arr []) with
    | arr l =>
      rw [hstv] at hp
      rcases mem_exlist_parseLoop l [] p hp with h | h
      · cases h
      · exact h
    | str s =>
      rw [hstv] at hp
      rcases mem_exlist_parseLoop _ [] p hp with h | h
      · cases h
      · exact h
    | obj fs2 =>
      rw [hstv] at hp
      rcases mem_exlist_parseLoop _ [] p hp with h | h
      · cases h
      · exact h
    | num n =>
      rw [hstv] at hp
      cases hp
    | bool b =>
      rw [hstv] at hp
      cases hp
    | null =>
      rw [hstv] at hp
      cases hp
  | arr xs => cases hp
  | str s => cases hp
  | num n => cases hp
  | bool b => cases hp
  | null => cases hp

/-! ## Claim C3 -/

/-- C3: every principal in the parser's result comes from a statement
whose `Effect` equals `Allow`; a principal appearing only under a `Deny`
statement is never included. -/
theorem C3_only_allow_contributes :
    ∀ (doc : JValue) (p : JValue), p ∈ trustedPrincipals doc →
      ∃ st, st ∈ docStatements doc ∧ isAllowStmt st = true ∧ p ∈ allowStmtUpper st :=
  mem_trusted_of_statements

/-- One Allow statement trusting `good`, one Deny statement trusting `evil`. -/
def allowDenyDoc : JValue :=
  .obj [("Statement", .arr
    [.obj [("Effect", .str "Allow"), ("Principal", .obj [("AWS", .str "good")])],
     .obj [("Effect", .str "Deny"), ("Principal", .obj [("AWS", .str "evil")])]])]

theorem C3_only_allow_contributes_witness :
    ∃ st, st ∈ docStatements allowDenyDoc ∧ isAllowStmt st = true ∧
      JValue.str "good" ∈ allowStmtUpper st := by
  refine C3_only_allow_contributes allowDenyDoc (.str "good") ?_
  rw [show trustedPrincipals allowDenyDoc = [JValue.str "good"] from rfl]
  exact List.mem_singleton_self _

/-! ## Lemmas: claim C6 (result shape on well-formed documents) -/

theorem extendFromKey_wf (pfs : List (String × JValue)) (key : String) (acc : List JValue)
    (hwf : match pfs.lookup key with
           | some v => wfPrincipalVal v = true
           | none => True) :
    extendFromKey (.obj pfs) key acc
      = .ok (acc ++ (match pfs.lookup key with
                     | some v => principalList v
                     | none => [])) := by
  simp only [extendFromKey, pyIn]
  rw [any_key_eq_lookup_isSome]
  cases hlk : pfs.lookup key with
  | none =>
    simp only [Option.isSome_none, Bool.false_eq_true, if_false, List.append_nil]
  | some v =>
    rw [hlk] at hwf
    simp only [Option.isSome_some, if_true, pySubscript, hlk]
    cases v with
    | str s => rfl
    | arr xs => rfl
    | num n => exact absurd hwf (by simp [wfPrincipalVal])
    | bool b => exact absurd hwf (by simp [wfPrincipalVal])
    | null => exact absurd hwf (by simp [wfPrincipalVal])
    | obj fs2 => exact absurd hwf (by simp [wfPrincipalVal])

theorem processStatement_wf (stmt : JValue) (hwf : wfStatement stmt = true)
    (acc : List JValue) :
    processStatement stmt acc = .ok (acc ++ stmtListedPrincipals stmt) := by
  cases stmt with
  | obj fs =>
    simp only [processStatement, pyDictGet]
    simp only [wfStatement] at hwf
    by_cases hall : jEqStrB ((fs.lookup "Effect").getD .null) "Allow" = true
    · rw [if_pos hall]
      rw [if_pos hall] at hwf
      have hlist : stmtListedPrincipals (.obj fs)
          = match (fs.lookup "Principal").getD (.obj []) with
            | .obj pfs =>
              (match pfs.lookup "AWS" with
               | some v => principalList v
               | none => []) ++
              (match pfs.lookup "Service" with
               | some v => principalList v
               | none => [])
            | _ => [] := by
        unfold stmtListedPrincipals
        rw [if_pos (show isAllowStmt (.obj fs) = true from hall)]
        rfl
      cases hpv : (fs.lookup "Principal").getD (.obj []) with
      | obj pfs =>
        rw [hpv] at hwf
        rw [Bool.and_eq_true] at hwf
        have hA : match pfs.lookup "AWS" with
            | some v => wfPrincipalVal v = true
            | none => True := by
          cases h : pfs.lookup "AWS" with
          | some v =>
            rw [h] at hwf
            exact hwf.1
          | none => trivial
        have hS : match pfs.lookup "Service" with
            | some v => wfPrincipalVal v = true
            | none => True := by
          cases h : pfs.lookup "Service" with
          | some v =>
            rw [h] at hwf
            exact hwf.2
          | none => trivial
        rw [extendFromKey_wf pfs "AWS" acc hA]
        dsimp only
        rw [extendFromKey_wf pfs "Service" _ hS, hlist, hpv]
        dsimp only
        rw [List.append_assoc]
      | arr xs =>
        rw [hpv] at hwf
        exact absurd hwf (by simp)
      | str s =>
        rw [hpv] at hwf
        exact absurd hwf (by simp)
      | num n =>
        rw [hpv] at hwf
        exact absurd hwf (by simp)
      | bool b =>
        rw [hpv] at hwf
        exact absurd hwf (by simp)
      | null =>
        rw [hpv] at hwf
        exact absurd hwf (by simp)
    · rw [if_neg hall]
      have hlist : stmtListedPrincipals (.obj fs) = [] := by
        unfold stmtListedPrincipals
        rw [if_neg (show ¬isAllowStmt (.obj fs) = true from hall)]
      rw [hlist, List.append_nil]
  | arr xs => exact absurd hwf (by simp [wfStatement])
  | str s => exact absurd hwf (by simp [wfStatement])
  | num n => exact absurd hwf (by simp [wfStatement])
  | bool b => exact absurd hwf (by simp [wfStatement])
  | null => exact absurd hwf (by simp [wfStatement])

theorem parseLoop_wf :
    ∀ (stmts : List JValue) (acc : List JValue), stmts.all wfStatement = true →
      parseLoop stmts acc = .ok (acc ++ ((stmts.map stmtListedPrincipals).flatten))
  | [], acc, _ => by simp [parseLoop]
  | st :: stmts, acc, h => by
    rw [List.all_cons, Bool.and_eq_true] at h
    simp only [parseLoop, processStatement_wf st h.1 acc]
    rw [parseLoop_wf stmts _ h.2]
    simp [List.append_assoc]

/-! ## Claim C6 -/

/-- The same principal string under both `AWS` and `Service`. -/
def dupDoc : JValue :=
  .obj [("Statement", .arr
    [.obj [("Effect", .str "Allow"),
           ("Principal", .obj [("AWS", .str "x"), ("Service", .str "x")])]])]

/-- C6 is false as stated: the parser returns a Python **list**, not a
set — the same principal under both keys (or in several statements)
appears repeatedly in the result. -/
theorem C6_counterexample :
    trustedPrincipals dupDoc = [.str "x", .str "x"] ∧
      ¬(trustedPrincipals dupDoc).Nodup := by
  refine ⟨rfl, ?_⟩
  rw [show trustedPrincipals dupDoc = [.str "x", .str "x"] from rfl]
  intro h
  exact (List.nodup_cons.mp h).1 (List.mem_singleton_self _)

/-- C6 (amended): on every well-formed document the parser returns the
**list** of all AWS and Service principals of Allow statements, in
statement order with `AWS` before `Service` inside a statement, each
string-or-list value normalized to its element list, duplicates
preserved. -/
theorem C6_parse_list_of_principals :
    ∀ (doc : JValue), wfDoc doc = true →
      trustedPrincipals doc = listedPrincipals doc := by
  intro doc hwf
  rw [trustedPrincipals_eq_exlist]
  cases doc with
  | obj fs =>
    simp only [wfDoc] at hwf
    simp only [parseInner, pyDictGet, listedPrincipals, docStatements]
    cases hstv : (fs.lookup "Statement").getD (.arr []) with
    | arr stmts =>
      rw [hstv] at hwf
      dsimp only at hwf ⊢
      rw [parseLoop_wf stmts [] hwf]
      simp [exlist]
    | str s =>
      rw [hstv] at hwf
      exact absurd hwf (by simp)
    | obj fs2 =>
      rw [hstv] at hwf
      exact absurd hwf (by simp)
    | num n =>
      rw [hstv] at hwf
      exact absurd hwf (by simp)
    | bool b =>
      rw [hstv] at hwf
      exact absurd hwf (by simp)
    | null =>
      rw [hstv] at hwf
      exact absurd hwf (by simp)
  | arr xs => exact absurd hwf (by simp [wfDoc])
  | str s => exact absurd hwf (by simp [wfDoc])
  | num n => exact absurd hwf (by simp [wfDoc])
  | bool b => exact absurd hwf (by simp [wfDoc])
  | null => exact absurd hwf (by simp [wfDoc])

/-- A well-formed document exercising both value shapes. -/
def wfSampleDoc : JValue :=
  .obj [("Statement", .arr
    [.obj [("Effect", .str "Allow"),
           ("Principal", .obj [("AWS", .arr [.str "a", .str "b"]),
                               ("Service", .str "c")])],
     .obj [("Effect", .str "Deny"),
           ("Principal", .obj [("AWS", .str "evil")])]])]

theorem C6_parse_list_of_principals_witness :
    wfDoc wfSampleDoc = true ∧
      trustedPrincipals wfSampleDoc = listedPrincipals wfSampleDoc :=
  ⟨rfl, C6_parse_list_of_principals wfSampleDoc rfl⟩

/-! ## Claim C7: string vs. one-element-list principal values -/

/-- Replace a single-string value by the one-element list holding it. -/
def wrapStrVal : JValue → JValue
  | .str s => .arr [.str s]
  | v => v

/-- Replace a one-element list holding a string by that string. -/
def unwrapSingleton : JValue → JValue
  | .arr [.str s] => .str s
  | v => v

/-- Apply `f` to the value stored under `key` of an object (identity on
anything else; keys are untouched). -/
def mapField (f : JValue → JValue) (key : String) : JValue → JValue
  | .obj fs => .obj (fs.map (fun kv => if kv.1 = key then (kv.1, f kv.2) else kv))
  | v => v

/-- Apply `f` to the `i`-th element of a list (identity out of range). -/
def modifyAt (f : JValue → JValue) : Nat → List JValue → List JValue
  | _, [] => []
  | 0, x :: rest => f x :: rest
  | i + 1, x :: rest => x :: modifyAt f i rest

/-- Apply `f` to the `i`-th element of an array value. -/
def mapArrAt (f : JValue → JValue) (i : Nat) : JValue → JValue
  | .arr xs => .arr (modifyAt f i xs)
  | v => v

/-- Rewrite the `key` value of the `i`-th statement's `Principal`. -/
def tweakDoc (f : JValue → JValue) (key : String) (i : Nat) (doc : JValue) : JValue :=
  mapField (mapArrAt (mapField (mapField f key) "Principal") i) "Statement" doc

theorem lookup_cons_gen {β : Type} (k : String) (v : β)
    (l : List (String × β)) (m : String) :
    ((k, v) :: l).lookup m = if m = k then some v else l.lookup m := by
  by_cases h : m = k
  · have hb : (m == k) = true := by simp [h]
    simp [List.lookup, hb, h]
  · have hb : (m == k) = false := by simp [h]
    simp [List.lookup, hb, h]

theorem lookup_mapField (g : JValue → JValue) (key : String) :
    ∀ (fs : List (String × JValue)) (k : String),
      (fs.map (fun kv => if kv.1 = key then (kv.1, g kv.2) else kv)).lookup k
        = if k = key then (fs.lookup k).map g else fs.lookup k
  | [], k => by
    by_cases h : k = key <;> simp [h]
  | (k0, v0) :: fs, k => by
    simp only [List.map_cons]
    by_cases h0 : k0 = key
    · have hhead : (if ((k0, v0) : String × JValue).1 = key
          then (k0, g v0) else (k0, v0)) = (k0, g v0) := by simp [h0]
      rw [hhead, lookup_cons_gen, lookup_cons_gen]
      by_cases hk : k = k0
      · rw [if_pos hk, if_pos (hk.trans h0), if_pos hk]
        rfl
      · rw [if_neg hk, if_neg hk, lookup_mapField g key fs k]
    · have hhead : (if ((k0, v0) : String × JValue).1 = key
          then (k0, g v0) else (k0, v0)) = (k0, v0) := by simp [h0]
      rw [hhead, lookup_cons_gen, lookup_cons_gen]
      by_cases hk : k = k0
      · rw [if_pos hk, if_neg (hk ▸ h0), if_pos hk]
      · rw [if_neg hk, if_neg hk, lookup_mapField g key fs k]

theorem any_key_mapField (g : JValue → JValue) (key : String) :
    ∀ (fs : List (String × JValue)) (x : String),
      ((fs.map (fun kv => if kv.1 = key then (kv.1, g kv.2) else kv)).any
          (fun kv => kv.1 = x))
        = fs.any (fun kv => kv.1 = x)
  | [], _ => rfl
  | (k0, v0) :: fs, x => by
    simp only [List.map_cons]
    by_cases h0 : k0 = key
    · have hhead : (if ((k0, v0) : String × JValue).1 = key
          then (k0, g v0) else (k0, v0)) = (k0, g v0) := by simp [h0]
      rw [hhead]
      simp only [List.any_cons, any_key_mapField g key fs x]
    · have hhead : (if ((k0, v0) : String × JValue).1 = key
          then (k0, g v0) else (k0, v0)) = (k0, v0) := by simp [h0]
      rw [hhead]
      simp only [List.any_cons, any_key_mapField g key fs x]

/-- The only property of a principal-value transform the parser can
observe: extending `trusted` with the (normalized) transformed value
contributes the same elements, or raises in the same way. -/
def PreservesExtend (f : JValue → JValue) : Prop :=
  ∀ v, pyExtendList (normalizePrincipalVal (f v)) = pyExtendList (normalizePrincipalVal v)

theorem wrapStrVal_preservesExtend : PreservesExtend wrapStrVal := by
  intro v
  cases v <;> rfl

theorem unwrapSingleton_preservesExtend : PreservesExtend unwrapSingleton := by
  intro v
  cases v with
  | arr xs =>
    match xs with
    | [] => rfl
    | [JValue.str s] => rfl
    | [JValue.null] => rfl
    | [JValue.bool b] => rfl
    | [JValue.num n] => rfl
    | [JValue.arr ys] => rfl
    | [JValue.obj fs2] => rfl
    | x :: y :: rest => cases x <;> rfl
  | null => rfl
  | bool b => rfl
  | num n => rfl
  | str s => rfl
  | obj fs => rfl

theorem extendFromKey_mapField (f : JValue → JValue) (hf : PreservesExtend f)
    (tkey key : String) (principal : JValue) (acc : List JValue) :
    extendFromKey (mapField f tkey principal) key acc
      = extendFromKey principal key acc := by
  cases principal with
  | obj pfs =>
    simp only [mapField, extendFromKey, pyIn, pySubscript]
    rw [any_key_mapField, lookup_mapField, any_key_eq_lookup_isSome]
    by_cases hk : key = tkey
    · rw [if_pos hk]
      cases hlk : pfs.lookup key with
      | none => rfl
      | some v => simp [hf v]
    · rw [if_neg hk]
  | arr xs => rfl
  | str s => rfl
  | num n => rfl
  | bool b => rfl
  | null => rfl

theorem processStatement_tweak (f : JValue → JValue) (hf : PreservesExtend f)
    (tkey : String) (stmt : JValue) (acc : List JValue) :
    processStatement (mapField (mapField f tkey) "Principal" stmt) acc
      = processStatement stmt acc := by
  cases stmt with
  | obj fs =>
    rw [show mapField (mapField f tkey) "Principal" (.obj fs)
        = .obj (fs.map (fun kv =>
            if kv.1 = "Principal" then (kv.1, mapField f tkey kv.2) else kv)) from rfl]
    simp only [processStatement, pyDictGet]
    have hEff : (fs.map (fun kv =>
        if kv.1 = "Principal" then (kv.1, mapField f tkey kv.2) else kv)).lookup "Effect"
        = fs.lookup "Effect" := by
      rw [lookup_mapField, if_neg (by decide)]
    have hPrin : (fs.map (fun kv =>
        if kv.1 = "Principal" then (kv.1, mapField f tkey kv.2) else kv)).lookup "Principal"
        = (fs.lookup "Principal").map (mapField f tkey) := by
      rw [lookup_mapField, if_pos rfl]
    rw [hEff]
    by_cases hall : jEqStrB ((fs.lookup "Effect").getD .null) "Allow" = true
    · rw [if_pos hall, if_pos hall, hPrin]
      cases hP : fs.lookup "Principal" with
      | none => rfl
      | some v =>
        dsimp only [Option.map, Option.getD]
        simp only [extendFromKey_mapField f hf tkey]
    · rw [if_neg hall, if_neg hall]
  | arr xs => rfl
  | str s => rfl
  | num n => rfl
  | bool b => rfl
  | null => rfl

theorem parseLoop_modifyAt (g : JValue → JValue)
    (hg : ∀ stmt acc, processStatement (g stmt) acc = processStatement stmt acc) :
    ∀ (i : Nat) (l : List JValue) (acc : List JValue),
      parseLoop (modifyAt g i l) acc = parseLoop l acc
  | 0, [], _ => rfl
  | _ + 1, [], _ => rfl
  | 0, st :: l, acc => by
    simp only [modifyAt, parseLoop, hg st acc]
  | i + 1, st :: l, acc => by
    simp only [modifyAt, parseLoop]
    cases h : processStatement st acc with
    | error a => rfl
    | ok acc1 => exact parseLoop_modifyAt g hg i l acc1

theorem parseInner_tweak (f : JValue → JValue) (hf : PreservesExtend f)
    (tkey : String) (i : Nat) (doc : JValue) :
    parseInner (tweakDoc f tkey i doc) = parseInner doc := by
  cases doc with
  | obj fs =>
    rw [show tweakDoc f tkey i (.obj fs)
        = .obj (fs.map (fun kv =>
            if kv.1 = "Statement"
            then (kv.1, mapArrAt (mapField (mapField f tkey) "Principal") i kv.2)
            else kv)) from rfl]
    simp only [parseInner, pyDictGet]
    have hSt : (fs.map (fun kv =>
        if kv.1 = "Statement"
        then (kv.1, mapArrAt (mapField (mapField f tkey) "Principal") i kv.2)
        else kv)).lookup "Statement"
        = (fs.lookup "Statement").map (mapArrAt (mapField (mapField f tkey) "Principal") i) := by
      rw [lookup_mapField, if_pos rfl]
    rw [hSt]
    cases h : fs.lookup "Statement" with
    | none => rfl
    | some v =>
      cases v with
      | arr l =>
        simp only [Option.map_some, Option.getD_some, mapArrAt]
        exact parseLoop_modifyAt _ (fun stmt acc => processStatement_tweak f hf tkey stmt acc) i l []
      | str s => rfl
      | obj fs2 => rfl
      | num n => rfl
      | bool b => rfl
      | null => rfl
  | arr xs => rfl
  | str s => rfl
  | num n => rfl
  | bool b => rfl
  | null => rfl

theorem tweak_invariant (f : JValue → JValue) (hf : PreservesExtend f)
    (tkey : String) (i : Nat) (doc : JValue) :
    trustedPrincipals (tweakDoc f tkey i doc) = trustedPrincipals doc := by
  rw [trustedPrincipals_eq_exlist, trustedPrincipals_eq_exlist,
    parseInner_tweak f hf tkey i doc]

/-- C7: replacing a `Principal.AWS` value given as a single string `s` by
the one-element list `[s]`, or vice versa, in any statement of any
trust-policy document, leaves the parser's result unchanged; the same
holds for `Principal.Service`. -/
theorem C7_string_list_equivalence :
    ∀ (doc : JValue) (i : Nat),
      trustedPrincipals (tweakDoc wrapStrVal "AWS" i doc) = trustedPrincipals doc ∧
      trustedPrincipals (tweakDoc unwrapSingleton "AWS" i doc) = trustedPrincipals doc ∧
      trustedPrincipals (tweakDoc wrapStrVal "Service" i doc) = trustedPrincipals doc ∧
      trustedPrincipals (tweakDoc unwrapSingleton "Service" i doc) = trustedPrincipals doc := by
  intro doc i
  exact ⟨tweak_invariant wrapStrVal wrapStrVal_preservesExtend "AWS" i doc,
    tweak_invariant unwrapSingleton unwrapSingleton_preservesExtend "AWS" i doc,
    tweak_invariant wrapStrVal wrapStrVal_preservesExtend "Service" i doc,
    tweak_invariant unwrapSingleton unwrapSingleton_preservesExtend "Service" i doc⟩

end IamViz
